import Mathlib

/-!
Verification of the pinata-ipfs-scripts batch file-mapping pipeline.

This development gives a shallow embedding of the core of the repository:
the locale-aware natural key sort (src/utils/object.utils.ts), the
rate-limited mapping orchestrator (src/services/rate-limited-file-mapping.service.ts),
the hash/CID processors (src/core, HashProcessor and CIDProcessor), the
file-upload processor with its dedup cache (src/core/file-upload.processor.ts),
the folder-upload processor (src/core/folder-upload.processor.ts) and the
pin-list pagination of src/services/pinata.service.ts.

JavaScript objects with string keys are embedded as association lists in
property insertion order (JS objects have unique keys, kept here as a
Nodup hypothesis on the key column).  Fallible operations return Except,
external collaborators (file system, Pinata remote API, hash strategy) are
function parameters, and file writes are recorded as explicit write-event
lists so that atomicity properties can be stated.
-/

/-! ### Model of the ECMA-402 collation used by sortObjectByKeys

The comparator in src/utils/object.utils.ts is the platform primitive
string.localeCompare(other, en, numeric true).  It is modelled here by
mapping every string to a sort key: the string is cut into tokens, where a
maximal run of decimal digits becomes one token compared by its numeric
value and any other character is a token compared by code point (a digit
run is ranked at code point 48, which matches the en collation placing
numbers after punctuation and before letters); ties between distinct
strings with equal token lists (such as 01 versus 1) are broken by raw
code-point comparison.  Keys are compared lexicographically, so numeric
file-name segments compare by numeric value, not lexicographically. -/

abbrev NatTok := Lex (Nat × Nat)

/-- Token for a single non-digit character, ranked by code point. -/
def charTok (c : Char) : NatTok := toLex (c.toNat, 0)

/-- Token for a maximal digit run with numeric value v. -/
def digitRunTok (v : Nat) : NatTok := toLex (48, v)

/-- Numeric value of a decimal digit character. -/
def digitVal (c : Char) : Nat := c.toNat - 48

/-- Tokenizer for the numeric-aware collation.  The first argument holds
the accumulated value of the digit run currently being read, if any. -/
def tokenizeAux : Option Nat → List Char → List NatTok
  | none, [] => []
  | some v, [] => [digitRunTok v]
  | none, c :: cs =>
    if c.isDigit then tokenizeAux (some (digitVal c)) cs
    else charTok c :: tokenizeAux none cs
  | some v, c :: cs =>
    if c.isDigit then tokenizeAux (some (v * 10 + digitVal c)) cs
    else digitRunTok v :: charTok c :: tokenizeAux none cs

/-- Sort key of a string under the numeric-aware collation: token list
first, raw character list as the tie break. -/
abbrev NatKey := Lex (List NatTok × List Char)

/-- Sort key assignment for the modelled collation. -/
def natKey (s : String) : NatKey := toLex (tokenizeAux none s.data, s.data)

/-- Model of the JavaScript a.localeCompare(b, en, numeric true) comparator
used by ObjectUtils.sortObjectByKeys, as an Ordering. -/
def localeCompareNumericEn (a b : String) : Ordering := compare (natKey a) (natKey b)

/-- The non-strict order induced by the comparator: a sorts no later than b
exactly when the comparator does not answer gt. -/
def localeNatLe (a b : String) : Prop := localeCompareNumericEn a b ≠ Ordering.gt

instance : DecidableRel localeNatLe := fun a b =>
  inferInstanceAs (Decidable (localeCompareNumericEn a b ≠ Ordering.gt))

instance : IsTotal String localeNatLe :=
  ⟨fun a b => by
    unfold localeNatLe localeCompareNumericEn
    rw [compare_le_iff_le, compare_le_iff_le]
    exact le_total _ _⟩

instance : IsTrans String localeNatLe :=
  ⟨fun a b c hab hbc => by
    unfold localeNatLe localeCompareNumericEn at hab hbc ⊢
    rw [compare_le_iff_le] at hab hbc ⊢
    exact le_trans hab hbc⟩

instance : IsAntisymm String localeNatLe :=
  ⟨fun a b hab hba => by
    unfold localeNatLe localeCompareNumericEn at hab hba
    rw [compare_le_iff_le] at hab hba
    have h : natKey a = natKey b := le_antisymm hab hba
    have h2 := congrArg (fun k => (ofLex k).2) h
    simp only [natKey, ofLex_toLex] at h2
    cases a; cases b; simp_all⟩

/-! ### JavaScript records as association lists -/

/-- The key column of a record, in property order (Object.keys). -/
def objectKeys {V : Type} (o : List (String × V)) : List String := o.map Prod.fst

/-- JavaScript property assignment obj[k] = v: if the key is present its
value is updated in place, otherwise the property is appended. -/
def jsSet {V : Type} (o : List (String × V)) (k : String) (v : V) : List (String × V) :=
  if (o.lookup k).isSome then o.map fun e => if e.1 = k then (k, v) else e
  else o ++ [(k, v)]

/-- The entries a reduce over a key list builds by copying obj[k] for each
key k: keys absent from the source record contribute nothing. -/
def keyedEntries {V : Type} (o : List (String × V)) (ks : List String) : List (String × V) :=
  ks.filterMap fun k => (o.lookup k).map fun v => (k, v)

/-- ObjectUtils.sortObjectByKeys from src/utils/object.utils.ts:
Object.keys(obj).sort by localeCompare(en, numeric) then reduce the sorted
keys back into a record. -/
def sortObjectByKeys {V : Type} (o : List (String × V)) : List ((String × V)) :=
  keyedEntries o (List.insertionSort localeNatLe (objectKeys o))

/-! ### Guards and file-name utilities (src/utils/guards.ts, src/utils/file.utils.ts) -/

/-- Guard isNonEmptyString: the trimmed string has positive length, that
is, some character is not whitespace. -/
def isNonEmptyString (s : String) : Bool := s.data.any fun c => !(c.isWhitespace)

/-- JavaScript truthiness of a lookup result that is a string or undefined:
undefined and the empty string are falsy, any other string is truthy. -/
def isTruthy : Option String → Bool
  | none => false
  | some s => !s.isEmpty

/-- Effect of the regex replace of a leading .*[\\/] prefix: everything up
to and including the last path separator (slash or backslash) is removed. -/
def stripDirs (cs : List Char) : List Char :=
  cs.foldl (fun acc c => if c = '/' ∨ c = '\\' then [] else acc ++ [c]) []

/-- FileUtils.getFileName: the file name is the last path segment; an empty
or whitespace path, or a path with no name after the last separator,
yields the empty string. -/
def getFileName (filePath : String) : String :=
  if !isNonEmptyString filePath then ""
  else
    let fileName := String.mk (stripDirs filePath.data)
    if !isNonEmptyString fileName then "" else fileName

/-! ### The rate-limited mapping orchestrator
(RateLimitedFileMappingService.processFiles)

Every file path is mapped to a task that derives the file name, reads the
file content and runs the per-file computation, storing the result in the
shared mapping under the file name; the batch is awaited as a whole, any
task error rejects the batch, and the final mapping is returned sorted by
sortObjectByKeys.  The embedding runs the tasks sequentially in list
order; an arbitrary completion order of the concurrent workers is covered
by quantifying theorems over permutations of the task list. -/

/-- One per-file step: read the file, then run the computation on
(filePath, fileName, content).  Either part may fail. -/
def stepResult {V : Type} (readFile : String → Except String (List Nat))
    (compute : String → String → List Nat → Except String V)
    (filePath : String) : Except String V :=
  match readFile filePath with
  | .error e => .error e
  | .ok content => compute filePath (getFileName filePath) content

/-- Task loop of processFiles: run the per-file steps in completion order,
storing each result under the file name, then sort the mapping. -/
def processFilesGo {V : Type} (readFile : String → Except String (List Nat))
    (compute : String → String → List Nat → Except String V) :
    List String → List (String × V) → Except String (List (String × V))
  | [], mapping => .ok (sortObjectByKeys mapping)
  | filePath :: rest, mapping =>
    match stepResult readFile compute filePath with
    | .error e => .error e
    | .ok result =>
      processFilesGo readFile compute rest (jsSet mapping (getFileName filePath) result)

/-- RateLimitedFileMappingService.processFiles on a list of file paths. -/
def processFiles {V : Type} (readFile : String → Except String (List Nat))
    (compute : String → String → List Nat → Except String V)
    (files : List String) : Except String (List (String × V)) :=
  processFilesGo readFile compute files []

/-! ### Hash strategy, UTF-8 encoding and the hash/CID processors -/

/-- UTF-8 encoding of one character (code point to byte sequence). -/
def utf8EncodeChar (c : Char) : List Nat :=
  let n := c.toNat
  if n < 128 then [n]
  else if n < 2048 then [192 + n / 64, 128 + n % 64]
  else if n < 65536 then [224 + n / 4096, 128 + n / 64 % 64, 128 + n % 64]
  else [240 + n / 262144, 128 + n / 4096 % 64, 128 + n / 64 % 64, 128 + n % 64]

/-- UTF-8 bytes of a string, as Buffer.from(s, utf8) produces them. -/
def utf8Encode (s : String) : List Nat := (s.data.map utf8EncodeChar).flatten

/-- Environment of the hash/CID processors: file discovery, file reads and
the digest strategy are external collaborators.  The digest strategy
covers both the synchronous crypto hash and the asynchronous CID
computation, and may fail, modelling a throwing strategy implementation. -/
structure HashEnv where
  readFiles : String → Except String (List String)
  readFile : String → Except String (List Nat)
  digest : List Nat → Except String String

/-- HashCalculatorService.calculateHashes (and CIDCalculatorService.calculateCIDs):
the orchestrator run with the digest strategy as the per-file computation. -/
def calculateHashes (env : HashEnv) (files : List String) :
    Except String (List (String × String)) :=
  processFiles env.readFile (fun _ _ content => env.digest content) files

/-- HashCalculatorService.calculateHashOfHashes: join the digest strings
with no separator and digest the UTF-8 bytes of the concatenation. -/
def calculateHashOfHashes (env : HashEnv) (hashes : List String) : Except String String :=
  env.digest (utf8Encode (String.join hashes))

/-- A persisted JSON value: either a name-to-string mapping or a bare string. -/
inductive Persisted where
  | mapping (m : List (String × String))
  | str (s : String)
deriving DecidableEq, Repr

/-- HashProcessor.process (and the identical CIDProcessor.process):
validate options, discover files, return an empty mapping for an empty
folder, otherwise run the orchestrator, sort, persist and return the
sorted mapping.  The second component lists the file writes performed, in
program order, so atomicity of persistence can be stated. -/
def hashProcess (env : HashEnv) (folderPath outputPath : String) :
    Except String (List (String × String)) × List (String × Persisted) :=
  if !isNonEmptyString folderPath then (.error "Folder path is required", [])
  else if !isNonEmptyString outputPath then (.error "Output path is required", [])
  else
    match env.readFiles folderPath with
    | .error e => (.error e, [])
    | .ok files =>
      if files.isEmpty then (.ok [], [])
      else
        match calculateHashes env files with
        | .error e => (.error e, [])
        | .ok hashMapping =>
          let sortedMapping := sortObjectByKeys hashMapping
          (.ok sortedMapping, [(outputPath, .mapping sortedMapping)])

/-- HashProcessor.processWithFinalHash: run process, digest the joined
mapping values (Object.values of the sorted mapping) and persist the final
hash separately. -/
def processWithFinalHash (env : HashEnv) (folderPath outputPath finalOutputPath : String) :
    Except String String × List (String × Persisted) :=
  let pr := hashProcess env folderPath outputPath
  match pr.1 with
  | .error e => (.error e, pr.2)
  | .ok hashMapping =>
    match calculateHashOfHashes env (hashMapping.map Prod.snd) with
    | .error e => (.error e, pr.2)
    | .ok finalHash => (.ok finalHash, pr.2 ++ [(finalOutputPath, .str finalHash)])

/-! ### The file-upload processor (src/core/file-upload.processor.ts) -/

/-- Result record of one attempted upload. -/
structure UploadResult where
  fileName : String
  cid : String
  success : Bool
  error : Option String
deriving DecidableEq, Repr

/-- Result of the PinataService.checkFileExists cache probe. -/
structure IFileCheck where
  existsFlag : Bool
  ipfsHash : Option String
deriving DecidableEq, Repr

/-- PinataService.checkFileExists: a file counts as already uploaded when
its name maps to a truthy value in the cached mapping. -/
def checkFileExists (fileName : String) (existingCIDs : List (String × String)) : IFileCheck :=
  { existsFlag := isTruthy (existingCIDs.lookup fileName),
    ipfsHash := existingCIDs.lookup fileName }

/-- ErrorHandler.normalizeError keeps the message of the underlying error
verbatim (an Error keeps its message, a string error becomes its own
message); the embedding carries errors as their message strings, so
normalisation is the identity on messages. -/
def normalizeErrorMessage (message : String) : String := message

/-- Remote upload collaborator: pinFileToIPFS via PinataService.uploadFile,
returning the IPFS hash of the pinned file or throwing. -/
structure UploadEnv where
  uploadFile : String → String → Except String String

/-- FileUploadProcessor.processFileUpload: consult the dedup cache and
either reuse the cached CID without any network call, or call uploadFile
once; a thrown upload error is caught and becomes a failed result.  The
second component counts the uploadFile network calls made for the file. -/
def processFileUpload (env : UploadEnv) (existingCIDs : List (String × String))
    (filePath : String) : UploadResult × Nat :=
  let fileName := getFileName filePath
  let check := checkFileExists fileName existingCIDs
  if check.existsFlag && isTruthy check.ipfsHash then
    ({ fileName := fileName, cid := check.ipfsHash.getD "", success := true, error := none }, 0)
  else
    match env.uploadFile filePath fileName with
    | .ok cid => ({ fileName := fileName, cid := cid, success := true, error := none }, 1)
    | .error e =>
      ({ fileName := fileName, cid := "", success := false,
         error := some (normalizeErrorMessage e) }, 1)

/-- FileUploadProcessor.handleTrackedException: an exception escaping the
per-file upload is converted into a failed result carrying the message. -/
def handleTrackedException (fileName : String) (message : String) : UploadResult :=
  { fileName := fileName, cid := "", success := false, error := some message }

/-- FileUploadProcessor.processFileUploadWithTracking: the per-file upload
wrapped in a catch-all.  stepFault models an exception thrown outside
processFileUpload's own handler (for example by the monitoring wrapper):
some message makes the step throw, none lets processFileUpload complete. -/
def processFileUploadWithTracking (env : UploadEnv) (existingCIDs : List (String × String))
    (stepFault : String → Option String) (filePath : String) : UploadResult :=
  match stepFault filePath with
  | some message => handleTrackedException (getFileName filePath) message
  | none => (processFileUpload env existingCIDs filePath).1

/-- FileUploadProcessor.executeUploads: every file is scheduled through the
rate limiter and Promise.all collects the results in batch order. -/
def executeUploads (env : UploadEnv) (existingCIDs : List (String × String))
    (stepFault : String → Option String) (files : List String) : List UploadResult :=
  files.map (processFileUploadWithTracking env existingCIDs stepFault)

/-- FileUploadProcessor.persistSuccessfulUploads: reduce the results into
the mapping that is saved, keeping only entries whose success flag is set
and whose cid is truthy. -/
def persistSuccessfulUploads (results : List UploadResult) : List (String × String) :=
  results.foldl
    (fun acc r => if r.success && !r.cid.isEmpty then jsSet acc r.fileName r.cid else acc) []

/-! ### Pin-list pagination (PinataService.collectPins) -/

/-- One page answered by the remote pinList API: the reported total count
and the optional row array; a row keeps the optional metadata name and the
pin hash. -/
structure PinListResponse where
  count : Nat
  rows : Option (List (Option String × String))

/-- PinataService.normalizeRows: a missing or empty row array becomes []. -/
def normalizeRows (rows : Option (List (Option String × String))) :
    List (Option String × String) :=
  rows.getD []

/-- PinataService.hasMoreResults: another page is requested exactly when
the page that came back was full. -/
def hasMoreResults (rowCount pageLimit : Nat) : Bool := pageLimit ≤ rowCount

/-- PinataService.isEmptyResult: a reported total of zero or an empty page
stops the loop before the rows are aggregated. -/
def isEmptyResult (totalResults rowCount : Nat) : Bool := totalResults == 0 || rowCount == 0

/-- PinataService.collectPins loop: request a page at the current offset,
stop on an empty result, otherwise aggregate the rows and continue while
the page was full, advancing the offset by the rows received.  The remote
is a function from (pageOffset, pageLimit) to a response; fuel bounds the
iteration count so that a remote that keeps answering full pages shows up
as none rather than divergence.  Returns the aggregated rows together
with the number of page requests issued. -/
def collectPinsGo (remote : Nat → Nat → PinListResponse) (pageLimit : Nat) :
    Nat → Nat → List (Option String × String) → Nat →
    Option (List (Option String × String) × Nat)
  | 0, _, _, _ => none
  | fuel + 1, pageOffset, pins, requests =>
    let response := remote pageOffset pageLimit
    let rows := normalizeRows response.rows
    if isEmptyResult response.count rows.length then some (pins, requests + 1)
    else
      if hasMoreResults rows.length pageLimit then
        collectPinsGo remote pageLimit fuel (pageOffset + rows.length) (pins ++ rows)
          (requests + 1)
      else some (pins ++ rows, requests + 1)

/-- PinataService.collectPins: page through the remote list with the fixed
page size of 1000, starting at offset 0. -/
def collectPins (remote : Nat → Nat → PinListResponse) (fuel : Nat) :
    Option (List (Option String × String) × Nat) :=
  collectPinsGo remote 1000 fuel 0 [] 0

/-! ### The folder-upload processor (src/core/folder-upload.processor.ts) -/

/-- Result record of one folder upload. -/
structure FolderUploadResult where
  folderName : String
  cid : String
  success : Bool
  error : Option String
deriving DecidableEq, Repr

/-- JavaScript string disjunction a or-else b: the empty string is falsy. -/
def jsOrString (a b : String) : String := if a.isEmpty then b else a

/-- Popping the last element of a split on slashes: everything after the
last slash (the whole string when no slash occurs). -/
def lastSlashSegment (cs : List Char) : List Char :=
  cs.foldl (fun acc c => if c = '/' then [] else acc ++ [c]) []

/-- Display name fallback chain of FolderUploadProcessor.process:
folderName, else the last slash-separated segment of the folder path, else
the literal metadata. -/
def displayNameOf (folderName : Option String) (folderPath : String) : String :=
  jsOrString (folderName.getD "")
    (jsOrString (String.mk (lastSlashSegment folderPath.data)) "metadata")

/-- FolderUploadProcessor.process with saveResult: validation errors are
thrown; an upload failure is caught, produces a failed result and writes
nothing; a successful upload writes the bare CID to the output path. -/
def folderUploadProcess (uploadFolder : String → String → Except String String)
    (folderPath outputPath : String) (folderName : Option String) :
    Except String FolderUploadResult × List (String × Persisted) :=
  if !isNonEmptyString folderPath then (.error "Folder path is required", [])
  else if !isNonEmptyString outputPath then (.error "Output path is required", [])
  else
    let displayName := displayNameOf folderName folderPath
    match uploadFolder folderPath displayName with
    | .ok cid =>
      (.ok { folderName := displayName, cid := cid, success := true, error := none },
        [(outputPath, .str cid)])
    | .error e =>
      (.ok { folderName := displayName, cid := "", success := false, error := some e }, [])

instance {ε α : Type} [DecidableEq ε] [DecidableEq α] : DecidableEq (Except ε α) :=
  fun a b =>
    match a, b with
    | .ok x, .ok y =>
      if h : x = y then isTrue (by rw [h]) else isFalse (by simp [h])
    | .error x, .error y =>
      if h : x = y then isTrue (by rw [h]) else isFalse (by simp [h])
    | .ok _, .error _ => isFalse (by simp)
    | .error _, .ok _ => isFalse (by simp)

/-- Spec-side definition, following the specification text: the aggregate
hash of hashes is the hash strategy applied to the UTF-8 bytes of the
concatenation (with no separator) of all per-file digest strings taken in
sorted-key order; d assigns each file name its digest string. -/
def specAggregateHash (digest : List Nat → Except String String) (d : String → String)
    (names : List String) : Except String String :=
  digest (utf8Encode (String.join ((List.insertionSort localeNatLe names).map d)))

/-- Number of page requests reported by a collectPins run. -/
def pageRequestsOf (r : Option (List (Option String × String) × Nat)) : Option Nat :=
  match r with
  | some (_, requests) => some requests
  | none => none

/-- Number of aggregated records reported by a collectPins run. -/
def recordTotalOf (r : Option (List (Option String × String) × Nat)) : Option Nat :=
  match r with
  | some (pins, _) => some pins.length
  | none => none

/-! ### Properties and claim theorems -/

theorem lookup_cons_self {V : Type} (es : List (String × V)) (k : String) (v : V) :
    List.lookup k ((k, v) :: es) = some v := by
  simp [List.lookup_cons]

theorem lookup_cons_ne {V : Type} (es : List (String × V)) {a k : String} (v : V)
    (h : a ≠ k) : List.lookup a ((k, v) :: es) = List.lookup a es := by
  rw [List.lookup_cons, show (a == k) = false from beq_eq_false_iff_ne.mpr h]

theorem keyedEntries_cons_none {V : Type} {o : List (String × V)} {k0 : String}
    (h0 : o.lookup k0 = none) (ks : List String) :
    keyedEntries o (k0 :: ks) = keyedEntries o ks := by
  simp [keyedEntries, List.filterMap_cons, h0]

theorem keyedEntries_cons_some {V : Type} {o : List (String × V)} {k0 : String} {v : V}
    (h0 : o.lookup k0 = some v) (ks : List String) :
    keyedEntries o (k0 :: ks) = (k0, v) :: keyedEntries o ks := by
  simp [keyedEntries, List.filterMap_cons, h0]

theorem lookup_keyedEntries {V : Type} (o : List (String × V)) (ks : List String) (k : String) :
    (keyedEntries o ks).lookup k = if k ∈ ks then o.lookup k else none := by
  induction ks with
  | nil => simp [keyedEntries]
  | cons k0 ks ih =>
    cases h0 : o.lookup k0 with
    | none =>
      rw [keyedEntries_cons_none h0, ih]
      by_cases hk : k = k0
      · subst hk; simp [h0]
      · simp [List.mem_cons, hk]
    | some v =>
      rw [keyedEntries_cons_some h0]
      by_cases hk : k = k0
      · subst hk; rw [lookup_cons_self]; simp [h0]
      · rw [lookup_cons_ne _ _ hk, ih]
        simp [List.mem_cons, hk]

theorem lookup_eq_none_of_not_mem {V : Type} {o : List (String × V)} {k : String}
    (h : k ∉ objectKeys o) : o.lookup k = none := by
  induction o with
  | nil => rfl
  | cons e o ih =>
    simp only [objectKeys, List.map_cons, List.mem_cons] at h
    push_neg at h
    obtain ⟨k0, v0⟩ := e
    rw [lookup_cons_ne _ _ h.1]
    exact ih h.2

theorem lookup_sortObjectByKeys {V : Type} (o : List (String × V)) (k : String) :
    (sortObjectByKeys o).lookup k = o.lookup k := by
  rw [sortObjectByKeys, lookup_keyedEntries]
  by_cases hk : k ∈ List.insertionSort localeNatLe (objectKeys o)
  · simp [hk]
  · have hk2 : k ∉ objectKeys o := by
      intro hmem
      exact hk (((List.perm_insertionSort localeNatLe (objectKeys o)).mem_iff).mpr hmem)
    simp [hk, lookup_eq_none_of_not_mem hk2]

theorem lookup_isSome_of_mem {V : Type} {o : List (String × V)} {k : String}
    (h : k ∈ objectKeys o) : (o.lookup k).isSome := by
  induction o with
  | nil => simp [objectKeys] at h
  | cons e o ih =>
    obtain ⟨k0, v0⟩ := e
    by_cases hk : k = k0
    · subst hk; rw [lookup_cons_self]; rfl
    · rw [lookup_cons_ne _ _ hk]
      simp only [objectKeys, List.map_cons, List.mem_cons] at h
      exact ih (h.resolve_left hk)

theorem keyedEntries_map_fst {V : Type} (o : List (String × V)) (ks : List String)
    (hks : ∀ k ∈ ks, k ∈ objectKeys o) :
    objectKeys (keyedEntries o ks) = ks := by
  induction ks with
  | nil => rfl
  | cons k0 ks ih =>
    have h0 : k0 ∈ objectKeys o := hks k0 (List.mem_cons_self _ _)
    cases h : o.lookup k0 with
    | none => exact absurd (lookup_isSome_of_mem h0) (by simp [h])
    | some v =>
      simp only [keyedEntries, List.filterMap_cons, h, Option.map_some', objectKeys, List.map_cons]
      exact congrArg (k0 :: ·) (ih (fun k hk => hks k (List.mem_cons_of_mem _ hk)))

theorem insertionSort_keys_sub {V : Type} (o : List (String × V)) :
    ∀ k ∈ List.insertionSort localeNatLe (objectKeys o), k ∈ objectKeys o := fun _ hk =>
  (List.perm_insertionSort localeNatLe (objectKeys o)).mem_iff.mp hk

theorem sortObjectByKeys_keys {V : Type} (o : List (String × V)) :
    objectKeys (sortObjectByKeys o) = List.insertionSort localeNatLe (objectKeys o) :=
  keyedEntries_map_fst o _ (insertionSort_keys_sub o)

theorem sortObjectByKeys_keys_sorted {V : Type} (o : List (String × V)) :
    List.Sorted localeNatLe (objectKeys (sortObjectByKeys o)) := by
  rw [sortObjectByKeys_keys]
  exact List.sorted_insertionSort localeNatLe (objectKeys o)

theorem sortObjectByKeys_keys_perm {V : Type} (o : List (String × V)) :
    (objectKeys (sortObjectByKeys o)).Perm (objectKeys o) := by
  rw [sortObjectByKeys_keys]
  exact List.perm_insertionSort localeNatLe (objectKeys o)

theorem lookup_eq_some_of_mem {V : Type} {o : List (String × V)} {k : String} {v : V}
    (hnd : (objectKeys o).Nodup) (hm : (k, v) ∈ o) : o.lookup k = some v := by
  induction o with
  | nil => simp at hm
  | cons e o ih =>
    obtain ⟨k0, v0⟩ := e
    simp only [objectKeys, List.map_cons, List.nodup_cons] at hnd
    rcases List.mem_cons.mp hm with he | hm2
    · rw [Prod.mk.injEq] at he
      rw [he.1, he.2, lookup_cons_self]
    · have hk : k ≠ k0 := by
        rintro rfl
        exact hnd.1 (List.mem_map.mpr ⟨(k, v), hm2, rfl⟩)
      rw [lookup_cons_ne _ _ hk]
      exact ih hnd.2 hm2

theorem mem_of_lookup_eq_some {V : Type} {o : List (String × V)} {k : String} {v : V}
    (h : o.lookup k = some v) : (k, v) ∈ o := by
  induction o with
  | nil => simp [List.lookup] at h
  | cons e o ih =>
    obtain ⟨k0, v0⟩ := e
    by_cases hk : k = k0
    · subst hk
      rw [lookup_cons_self] at h
      exact List.mem_cons.mpr (Or.inl (by rw [Option.some.injEq] at h; rw [h]))
    · rw [lookup_cons_ne _ _ hk] at h
      exact List.mem_cons.mpr (Or.inr (ih h))

theorem lookup_eq_of_perm {V : Type} {o1 o2 : List (String × V)}
    (hnd : (objectKeys o1).Nodup) (hp : o1.Perm o2) (k : String) :
    o1.lookup k = o2.lookup k := by
  have hkeys : (objectKeys o1).Perm (objectKeys o2) := hp.map Prod.fst
  have hnd2 : (objectKeys o2).Nodup := hkeys.nodup_iff.mp hnd
  cases h1 : o1.lookup k with
  | none =>
    have hk : k ∉ objectKeys o1 := fun hm => by
      have := lookup_isSome_of_mem hm
      rw [h1] at this
      simp at this
    have hk2 : k ∉ objectKeys o2 := fun hm => hk (hkeys.mem_iff.mpr hm)
    rw [lookup_eq_none_of_not_mem hk2]
  | some v =>
    have hm : (k, v) ∈ o2 := hp.mem_iff.mp (mem_of_lookup_eq_some h1)
    rw [lookup_eq_some_of_mem hnd2 hm]

theorem keyedEntries_congr {V : Type} {o1 o2 : List (String × V)} (ks : List String)
    (h : ∀ k ∈ ks, o1.lookup k = o2.lookup k) :
    keyedEntries o1 ks = keyedEntries o2 ks := by
  induction ks with
  | nil => rfl
  | cons k0 ks ih =>
    have h0 := h k0 (List.mem_cons_self _ _)
    have ht := ih fun k hk => h k (List.mem_cons_of_mem _ hk)
    cases h2 : o2.lookup k0 with
    | none => rw [keyedEntries_cons_none (h0.trans h2), keyedEntries_cons_none h2, ht]
    | some v => rw [keyedEntries_cons_some (h0.trans h2), keyedEntries_cons_some h2, ht]

theorem sortObjectByKeys_perm_invariant {V : Type} {o1 o2 : List (String × V)}
    (hnd : (objectKeys o1).Nodup) (hp : o1.Perm o2) :
    sortObjectByKeys o1 = sortObjectByKeys o2 := by
  have hkeys : (objectKeys o1).Perm (objectKeys o2) := hp.map Prod.fst
  have hks : List.insertionSort localeNatLe (objectKeys o1)
      = List.insertionSort localeNatLe (objectKeys o2) :=
    List.eq_of_perm_of_sorted
      (((List.perm_insertionSort _ _).trans hkeys).trans (List.perm_insertionSort _ _).symm)
      (List.sorted_insertionSort localeNatLe (objectKeys o1))
      (List.sorted_insertionSort localeNatLe (objectKeys o2))
  unfold sortObjectByKeys
  rw [hks]
  exact keyedEntries_congr _ fun k _ => lookup_eq_of_perm hnd hp k

theorem keyedEntries_self {V : Type} {o : List (String × V)}
    (hnd : (objectKeys o).Nodup) : keyedEntries o (objectKeys o) = o := by
  induction o with
  | nil => rfl
  | cons e o ih =>
    obtain ⟨k0, v0⟩ := e
    simp only [objectKeys, List.map_cons, List.nodup_cons] at hnd
    have hstep : keyedEntries ((k0, v0) :: o) (objectKeys o) = keyedEntries o (objectKeys o) := by
      apply keyedEntries_congr
      intro k hk
      exact lookup_cons_ne _ _ (fun he => hnd.1 (he ▸ hk))
    show keyedEntries ((k0, v0) :: o) (k0 :: objectKeys o) = _
    rw [keyedEntries_cons_some (lookup_cons_self o k0 v0), hstep, ih hnd.2]

theorem sortObjectByKeys_of_sorted {V : Type} {o : List (String × V)}
    (hnd : (objectKeys o).Nodup) (hs : List.Sorted localeNatLe (objectKeys o)) :
    sortObjectByKeys o = o := by
  unfold sortObjectByKeys
  rw [hs.insertionSort_eq]
  exact keyedEntries_self hnd

theorem jsSet_fresh {V : Type} {o : List (String × V)} {k : String} (v : V)
    (h : o.lookup k = none) : jsSet o k v = o ++ [(k, v)] := by
  simp [jsSet, h]

theorem processFilesGo_ok_of_steps {V : Type}
    (readFile : String → Except String (List Nat))
    (compute : String → String → List Nat → Except String V)
    (valueFn : String → V) :
    ∀ (files : List String) (acc : List (String × V)),
      (∀ f ∈ files, stepResult readFile compute f = .ok (valueFn f)) →
      (objectKeys acc ++ files.map getFileName).Nodup →
      processFilesGo readFile compute files acc
        = .ok (sortObjectByKeys (acc ++ files.map fun f => (getFileName f, valueFn f)))
  | [], acc, _, _ => by simp [processFilesGo]
  | f :: rest, acc, hsteps, hnd => by
    have hstep := hsteps f (List.mem_cons_self _ _)
    have hfresh : acc.lookup (getFileName f) = none := by
      apply lookup_eq_none_of_not_mem
      intro hmem
      have hnd3 : (objectKeys acc ++ getFileName f :: rest.map getFileName).Nodup := by
        simpa using hnd
      exact (List.nodup_append.mp hnd3).2.2 hmem (List.mem_cons_self _ _)
    have hnd2 : (objectKeys (acc ++ [(getFileName f, valueFn f)])
        ++ rest.map getFileName).Nodup := by
      have heq : objectKeys (acc ++ [(getFileName f, valueFn f)]) ++ rest.map getFileName
          = objectKeys acc ++ (f :: rest).map getFileName := by
        simp [objectKeys, List.append_assoc]
      rw [heq]
      exact hnd
    show processFilesGo readFile compute (f :: rest) acc = _
    rw [processFilesGo, hstep]
    show processFilesGo readFile compute rest (jsSet acc (getFileName f) (valueFn f)) = _
    rw [jsSet_fresh _ hfresh]
    rw [processFilesGo_ok_of_steps readFile compute valueFn rest _
      (fun g hg => hsteps g (List.mem_cons_of_mem _ hg)) hnd2]
    simp [List.append_assoc]

theorem processFilesGo_error_of_step {V : Type}
    (readFile : String → Except String (List Nat))
    (compute : String → String → List Nat → Except String V) :
    ∀ (files : List String) (acc : List (String × V)),
      (∃ f ∈ files, ∃ e, stepResult readFile compute f = .error e) →
      ∃ e, processFilesGo readFile compute files acc = .error e
  | [], _, h => by simp at h
  | f :: rest, acc, h => by
    rcases h with ⟨g, hg, e, hge⟩
    rcases List.mem_cons.mp hg with rfl | hgrest
    · exact ⟨e, by rw [processFilesGo, hge]⟩
    · cases hf : stepResult readFile compute f with
      | error e2 => exact ⟨e2, by rw [processFilesGo, hf]⟩
      | ok r =>
        rcases processFilesGo_error_of_step readFile compute rest
          (jsSet acc (getFileName f) r) ⟨g, hgrest, e, hge⟩ with ⟨e2, he2⟩
        exact ⟨e2, by rw [processFilesGo, hf]; exact he2⟩

theorem processFilesGo_ok_sorted {V : Type}
    (readFile : String → Except String (List Nat))
    (compute : String → String → List Nat → Except String V) :
    ∀ (files : List String) (acc m : List (String × V)),
      processFilesGo readFile compute files acc = .ok m →
      List.Sorted localeNatLe (objectKeys m)
  | [], acc, m, h => by
    rw [processFilesGo, Except.ok.injEq] at h
    rw [← h]
    exact sortObjectByKeys_keys_sorted acc
  | f :: rest, acc, m, h => by
    rw [processFilesGo] at h
    cases hf : stepResult readFile compute f with
    | error e => rw [hf] at h; exact absurd h (by simp)
    | ok r =>
      rw [hf] at h
      exact processFilesGo_ok_sorted readFile compute rest _ m h

theorem persistSuccessfulUploads_go (results : List UploadResult) :
    ∀ acc : List (String × String),
      (objectKeys acc ++ results.map UploadResult.fileName).Nodup →
      results.foldl
        (fun acc r => if r.success && !r.cid.isEmpty then jsSet acc r.fileName r.cid else acc)
          acc
        = acc ++ (results.filter fun r => r.success && !r.cid.isEmpty).map
            fun r => (r.fileName, r.cid) := by
  induction results with
  | nil => intro acc _; simp
  | cons r rest ih =>
    intro acc hnd
    have hnd3 : (objectKeys acc ++ r.fileName :: rest.map UploadResult.fileName).Nodup := by
      simpa using hnd
    by_cases hc : (r.success && !r.cid.isEmpty) = true
    · have hfresh : acc.lookup r.fileName = none := by
        apply lookup_eq_none_of_not_mem
        intro hmem
        exact (List.nodup_append.mp hnd3).2.2 hmem (List.mem_cons_self _ _)
      have hnd2 : (objectKeys (acc ++ [(r.fileName, r.cid)])
          ++ rest.map UploadResult.fileName).Nodup := by
        have heq : objectKeys (acc ++ [(r.fileName, r.cid)])
            ++ rest.map UploadResult.fileName
            = objectKeys acc ++ r.fileName :: rest.map UploadResult.fileName := by
          simp [objectKeys, List.append_assoc]
        rw [heq]
        exact hnd3
      rw [List.foldl_cons]
      rw [if_pos hc, jsSet_fresh _ hfresh, ih _ hnd2]
      simp [List.filter_cons, hc, List.append_assoc]
    · have hnd2 : (objectKeys acc ++ rest.map UploadResult.fileName).Nodup := by
        refine List.Nodup.sublist ?_ hnd3
        exact (List.sublist_cons_self _ _).append_left _
      rw [List.foldl_cons, if_neg hc, ih _ hnd2]
      simp [List.filter_cons, hc]

theorem persistSuccessfulUploads_eq (results : List UploadResult)
    (hnd : (results.map UploadResult.fileName).Nodup) :
    persistSuccessfulUploads results
      = (results.filter fun r => r.success && !r.cid.isEmpty).map
          fun r => (r.fileName, r.cid) := by
  have h := persistSuccessfulUploads_go results [] (by simpa [objectKeys] using hnd)
  simpa [persistSuccessfulUploads] using h

theorem collectPinsGo_continue (remote : Nat → Nat → PinListResponse)
    (pageLimit fuel off reqs : Nat) (acc : List (Option String × String))
    (hempty : isEmptyResult (remote off pageLimit).count
      (normalizeRows (remote off pageLimit).rows).length = false)
    (hmore : hasMoreResults (normalizeRows (remote off pageLimit).rows).length
      pageLimit = true) :
    collectPinsGo remote pageLimit (fuel + 1) off acc reqs
      = collectPinsGo remote pageLimit fuel
          (off + (normalizeRows (remote off pageLimit).rows).length)
          (acc ++ normalizeRows (remote off pageLimit).rows) (reqs + 1) := by
  rw [collectPinsGo]
  simp [hempty, hmore]

theorem collectPinsGo_stop (remote : Nat → Nat → PinListResponse)
    (pageLimit fuel off reqs : Nat) (acc : List (Option String × String))
    (hempty : isEmptyResult (remote off pageLimit).count
      (normalizeRows (remote off pageLimit).rows).length = false)
    (hmore : hasMoreResults (normalizeRows (remote off pageLimit).rows).length
      pageLimit = false) :
    collectPinsGo remote pageLimit (fuel + 1) off acc reqs
      = some (acc ++ normalizeRows (remote off pageLimit).rows, reqs + 1) := by
  rw [collectPinsGo]
  simp [hempty, hmore]

theorem collectPinsGo_spec (remote : Nat → Nat → PinListResponse) :
    ∀ (k start fuel reqs : Nat) (acc : List (Option String × String)),
      (∀ i, i < k → (normalizeRows (remote (start + i * 1000) 1000).rows).length = 1000) →
      (∀ i, i ≤ k → (remote (start + i * 1000) 1000).count ≠ 0) →
      0 < (normalizeRows (remote (start + k * 1000) 1000).rows).length →
      (normalizeRows (remote (start + k * 1000) 1000).rows).length < 1000 →
      k + 1 ≤ fuel →
      ∃ pins, collectPinsGo remote 1000 fuel start acc reqs = some (pins, reqs + (k + 1)) ∧
        pins.length = acc.length + k * 1000
          + (normalizeRows (remote (start + k * 1000) 1000).rows).length := by
  intro k
  induction k with
  | zero =>
    intro start fuel reqs acc _ hcount hpos hshort hfuel
    obtain ⟨fuel, rfl⟩ : ∃ m, fuel = m + 1 := ⟨fuel - 1, by omega⟩
    have hc0 := hcount 0 (Nat.le_refl 0)
    rw [show start + 0 * 1000 = start from by ring] at hc0 hpos hshort
    have hempty : isEmptyResult (remote start 1000).count
        (normalizeRows (remote start 1000).rows).length = false := by
      simp only [isEmptyResult, Bool.or_eq_false_iff, beq_eq_false_iff_ne]
      exact ⟨hc0, by omega⟩
    have hmore : hasMoreResults (normalizeRows (remote start 1000).rows).length 1000
        = false := by
      simp only [hasMoreResults, decide_eq_false_iff_not]
      omega
    refine ⟨acc ++ normalizeRows (remote start 1000).rows, ?_, ?_⟩
    · rw [collectPinsGo_stop remote 1000 fuel start reqs acc hempty hmore]
    · rw [show start + 0 * 1000 = start from by ring]
      simp [List.length_append]
  | succ k ih =>
    intro start fuel reqs acc hfull hcount hpos hshort hfuel
    obtain ⟨fuel, rfl⟩ : ∃ m, fuel = m + 1 := ⟨fuel - 1, by omega⟩
    have h0 : (normalizeRows (remote (start + 0 * 1000) 1000).rows).length = 1000 :=
      hfull 0 (by omega)
    rw [show start + 0 * 1000 = start from by ring] at h0
    have hc0 := hcount 0 (by omega)
    rw [show start + 0 * 1000 = start from by ring] at hc0
    have hempty : isEmptyResult (remote start 1000).count
        (normalizeRows (remote start 1000).rows).length = false := by
      simp only [isEmptyResult, Bool.or_eq_false_iff, beq_eq_false_iff_ne]
      exact ⟨hc0, by omega⟩
    have hmore : hasMoreResults (normalizeRows (remote start 1000).rows).length 1000
        = true := by
      simp only [hasMoreResults, decide_eq_true_eq]
      omega
    have hfull2 : ∀ i, i < k →
        (normalizeRows (remote (start + 1000 + i * 1000) 1000).rows).length = 1000 := by
      intro i hi
      have h := hfull (i + 1) (by omega)
      rwa [show start + (i + 1) * 1000 = start + 1000 + i * 1000 from by ring] at h
    have hcount2 : ∀ i, i ≤ k → (remote (start + 1000 + i * 1000) 1000).count ≠ 0 := by
      intro i hi
      have h := hcount (i + 1) (by omega)
      rwa [show start + (i + 1) * 1000 = start + 1000 + i * 1000 from by ring] at h
    have hpos2 : 0 < (normalizeRows (remote (start + 1000 + k * 1000) 1000).rows).length := by
      rwa [show start + 1000 + k * 1000 = start + (k + 1) * 1000 from by ring]
    have hshort2 : (normalizeRows (remote (start + 1000 + k * 1000) 1000).rows).length
        < 1000 := by
      rwa [show start + 1000 + k * 1000 = start + (k + 1) * 1000 from by ring]
    obtain ⟨pins, hp, hlen⟩ := ih (start + 1000) fuel (reqs + 1)
      (acc ++ normalizeRows (remote start 1000).rows) hfull2 hcount2 hpos2 hshort2 (by omega)
    refine ⟨pins, ?_, ?_⟩
    · rw [collectPinsGo_continue remote 1000 fuel start reqs acc hempty hmore, h0]
      rw [hp]
      have harith : reqs + 1 + (k + 1) = reqs + (k + 1 + 1) := by omega
      rw [harith]
    · rw [show start + 1000 + k * 1000 = start + (k + 1) * 1000 from by ring] at hlen
      rw [hlen]
      simp only [List.length_append, h0]
      ring

theorem keyedEntries_eq_map {V : Type} {o : List (String × V)} {g : String → V}
    (ks : List String) (h : ∀ k ∈ ks, o.lookup k = some (g k)) :
    keyedEntries o ks = ks.map fun k => (k, g k) := by
  induction ks with
  | nil => rfl
  | cons k0 ks ih =>
    rw [keyedEntries_cons_some (h k0 (List.mem_cons_self _ _)), List.map_cons]
    rw [ih fun k hk => h k (List.mem_cons_of_mem _ hk)]

theorem processFilesGo_error_exact {V : Type}
    (readFile : String → Except String (List Nat))
    (compute : String → String → List Nat → Except String V) :
    ∀ (files : List String) (acc : List (String × V)) (f : String) (e : String),
      f ∈ files → stepResult readFile compute f = .error e →
      (∀ g ∈ files, g ≠ f → ∃ v, stepResult readFile compute g = .ok v) →
      processFilesGo readFile compute files acc = .error e
  | [], _, _, _, hmem, _, _ => by simp at hmem
  | g0 :: rest, acc, f, e, hmem, hstep, honly => by
    by_cases hg : g0 = f
    · subst hg
      rw [processFilesGo, hstep]
    · obtain ⟨v, hv⟩ := honly g0 (List.mem_cons_self _ _) hg
      have hmem2 : f ∈ rest := by
        rcases List.mem_cons.mp hmem with rfl | h
        · exact absurd rfl hg
        · exact h
      rw [processFilesGo, hv]
      exact processFilesGo_error_exact readFile compute rest _ f e hmem2 hstep
        fun g hg2 hne => honly g (List.mem_cons_of_mem _ hg2) hne

theorem processFileUploadWithTracking_fileName (env : UploadEnv)
    (cache : List (String × String)) (stepFault : String → Option String)
    (filePath : String) :
    (processFileUploadWithTracking env cache stepFault filePath).fileName
      = getFileName filePath := by
  unfold processFileUploadWithTracking handleTrackedException processFileUpload
  cases stepFault filePath with
  | some m => rfl
  | none =>
    simp only []
    split
    · rfl
    · cases env.uploadFile filePath (getFileName filePath) with
      | ok cid => rfl
      | error e => rfl

theorem executeUploads_map_fileName (env : UploadEnv) (cache : List (String × String))
    (stepFault : String → Option String) (files : List String) :
    (executeUploads env cache stepFault files).map UploadResult.fileName
      = files.map getFileName := by
  unfold executeUploads
  rw [List.map_map]
  exact List.map_congr_left fun f _ =>
    processFileUploadWithTracking_fileName env cache stepFault f

theorem hashProcess_eq (env : HashEnv) (folderPath outputPath : String)
    (files : List String)
    (h1 : isNonEmptyString folderPath = true) (h2 : isNonEmptyString outputPath = true)
    (hf : env.readFiles folderPath = .ok files) (hne : files.isEmpty = false) :
    hashProcess env folderPath outputPath
      = match calculateHashes env files with
        | .error e => (.error e, [])
        | .ok m => (.ok (sortObjectByKeys m), [(outputPath, .mapping (sortObjectByKeys m))]) := by
  unfold hashProcess
  rw [h1, h2, hf]
  simp [hne]

/-- C10: sortObjectByKeys is entry-preserving and idempotent.  For every
record (unique keys), the output has exactly the same key set as the input
(its keys are a permutation of the input keys), maps every key to the same
value as the input, and applying sortObjectByKeys to an already-sorted
record returns an equal record. -/
theorem C10_sortObjectByKeys_entry_preserving {V : Type} (o : List (String × V))
    (hnd : (objectKeys o).Nodup) :
    (objectKeys (sortObjectByKeys o)).Perm (objectKeys o)
      ∧ (∀ k, (sortObjectByKeys o).lookup k = o.lookup k)
      ∧ (List.Sorted localeNatLe (objectKeys o) → sortObjectByKeys o = o) :=
  ⟨sortObjectByKeys_keys_perm o, lookup_sortObjectByKeys o,
    fun hs => sortObjectByKeys_of_sorted hnd hs⟩

/-- Witness for C10 at a concrete two-entry record with sorted keys. -/
theorem C10_witness :
    (objectKeys [("file1.txt", "a"), ("file2.txt", "b")]).Nodup
      ∧ (objectKeys (sortObjectByKeys [("file1.txt", "a"), ("file2.txt", "b")])).Perm
          (objectKeys [("file1.txt", "a"), ("file2.txt", "b")])
      ∧ (sortObjectByKeys [("file1.txt", "a"), ("file2.txt", "b")]).lookup "file1.txt"
          = some "a"
      ∧ sortObjectByKeys [("file1.txt", "a"), ("file2.txt", "b")]
          = [("file1.txt", "a"), ("file2.txt", "b")] :=
  ⟨by decide,
    (C10_sortObjectByKeys_entry_preserving _ (by decide)).1,
    ((C10_sortObjectByKeys_entry_preserving _ (by decide)).2.1 "file1.txt").trans (by decide),
    (C10_sortObjectByKeys_entry_preserving _ (by decide)).2.2 (by decide)⟩

/-- C3: deterministic sorted output ordering.  Whatever the per-file
computation, the file list and the completion order, a successful
orchestrator run returns a mapping whose keys are sorted by the
locale-aware numeric-aware ordering; in particular the input names
file10.txt, file2.txt, file1.txt come out as file1.txt, file2.txt,
file10.txt. -/
theorem C3_sorted_output :
    (∀ (V : Type) (readFile : String → Except String (List Nat))
        (compute : String → String → List Nat → Except String V)
        (files : List String) (m : List (String × V)),
        processFiles readFile compute files = .ok m →
        List.Sorted localeNatLe (objectKeys m))
      ∧ (processFiles (fun _ => .ok []) (fun _ fileName _ => .ok fileName)
            ["file10.txt", "file2.txt", "file1.txt"]).map objectKeys
          = .ok ["file1.txt", "file2.txt", "file10.txt"] :=
  ⟨fun _ rf cp files m h => processFilesGo_ok_sorted rf cp files [] m h, by decide⟩

/-- Witness for C3 applying the universal part at a concrete run. -/
theorem C3_witness :
    processFiles (fun _ => .ok ([] : List Nat)) (fun _ fileName _ => .ok fileName)
        ["b.txt", "a.txt"] = .ok [("a.txt", "a.txt"), ("b.txt", "b.txt")]
      ∧ List.Sorted localeNatLe (objectKeys [("a.txt", "a.txt"), ("b.txt", "b.txt")]) :=
  ⟨by decide,
    C3_sorted_output.1 String (fun _ => .ok []) (fun _ fileName _ => .ok fileName)
      ["b.txt", "a.txt"] [("a.txt", "a.txt"), ("b.txt", "b.txt")] (by decide)⟩

/-- C1: upload deduplication.  When the dedup cache maps the base name of
the file to a truthy value, the upload returns the cached CID as a success
with no network call; otherwise exactly one uploadFile call is made. -/
theorem C1_upload_dedup (env : UploadEnv) (cache : List (String × String))
    (filePath : String) :
    ((checkFileExists (getFileName filePath) cache).existsFlag = true →
        processFileUpload env cache filePath
          = ({ fileName := getFileName filePath,
               cid := (checkFileExists (getFileName filePath) cache).ipfsHash.getD "",
               success := true, error := none }, 0))
      ∧ ((checkFileExists (getFileName filePath) cache).existsFlag = false →
          (processFileUpload env cache filePath).2 = 1) := by
  constructor
  · intro h
    have h3 : isTruthy (checkFileExists (getFileName filePath) cache).ipfsHash = true := h
    simp only [processFileUpload]
    rw [h, h3]
    simp
  · intro h
    simp only [processFileUpload]
    rw [h]
    simp only [Bool.false_and, Bool.false_eq_true, if_false]
    cases env.uploadFile filePath (getFileName filePath) with
    | ok cid => rfl
    | error e => rfl

/-- Witness for C1 on the spec example cache with a cached and a fresh file. -/
theorem C1_witness :
    (checkFileExists (getFileName "a.png") [("a.png", "Qm123")]).existsFlag = true
      ∧ processFileUpload ⟨fun _ _ => .ok "QmNew"⟩ [("a.png", "Qm123")] "a.png"
          = ({ fileName := "a.png", cid := "Qm123", success := true, error := none }, 0)
      ∧ (checkFileExists (getFileName "b.png") [("a.png", "Qm123")]).existsFlag = false
      ∧ (processFileUpload ⟨fun _ _ => .ok "QmNew"⟩ [("a.png", "Qm123")] "b.png").2 = 1 := by
  refine ⟨by decide, ?_, by decide, ?_⟩
  · exact ((C1_upload_dedup ⟨fun _ _ => .ok "QmNew"⟩ [("a.png", "Qm123")] "a.png").1
      (by decide)).trans (by decide)
  · exact (C1_upload_dedup ⟨fun _ _ => .ok "QmNew"⟩ [("a.png", "Qm123")] "b.png").2 (by decide)

/-- C7 counterexample: an upload failure whose underlying message is empty
produces success = false with error equal to some empty string, so the
claimed non-empty error message does not hold as stated. -/
theorem C7_counterexample :
    processFileUpload ⟨fun _ _ => .error ""⟩ [] "a.png"
        = ({ fileName := "a.png", cid := "", success := false, error := some "" }, 1)
      ∧ "".isEmpty = true := by decide

/-- C7 (amended): every UploadResult produced by the upload processor with
success = false has cid equal to the empty string and a present (defined)
error message; the message is the underlying error's message verbatim, so
it is non-empty exactly when that message is. -/
theorem C7_failed_result_invariant (env : UploadEnv) (cache : List (String × String))
    (stepFault : String → Option String) (filePath : String)
    (h : (processFileUploadWithTracking env cache stepFault filePath).success = false) :
    (processFileUploadWithTracking env cache stepFault filePath).cid = ""
      ∧ (processFileUploadWithTracking env cache stepFault filePath).error.isSome = true := by
  unfold processFileUploadWithTracking handleTrackedException at h ⊢
  cases hs : stepFault filePath with
  | some m => exact ⟨rfl, rfl⟩
  | none =>
    rw [hs] at h
    have h2 : (processFileUpload env cache filePath).1.success = false := h
    show (processFileUpload env cache filePath).1.cid = ""
      ∧ (processFileUpload env cache filePath).1.error.isSome = true
    by_cases hc : ((checkFileExists (getFileName filePath) cache).existsFlag
        && isTruthy (checkFileExists (getFileName filePath) cache).ipfsHash) = true
    · simp [processFileUpload, hc] at h2
    · have hcf : ((checkFileExists (getFileName filePath) cache).existsFlag
          && isTruthy (checkFileExists (getFileName filePath) cache).ipfsHash) = false :=
        Bool.eq_false_iff.mpr hc
      simp only [processFileUpload, hcf, Bool.false_eq_true, if_false] at h2 ⊢
      cases henv : env.uploadFile filePath (getFileName filePath) with
      | ok cid =>
        rw [henv] at h2
        simp at h2
      | error e =>
        exact ⟨rfl, rfl⟩

/-- Witness for C7 at a failing upload with a non-trivial message. -/
theorem C7_witness :
    (processFileUploadWithTracking ⟨fun _ _ => .error "boom"⟩ [] (fun _ => none)
        "a.png").success = false
      ∧ (processFileUploadWithTracking ⟨fun _ _ => .error "boom"⟩ [] (fun _ => none)
          "a.png").cid = ""
      ∧ (processFileUploadWithTracking ⟨fun _ _ => .error "boom"⟩ [] (fun _ => none)
          "a.png").error.isSome = true := by
  refine ⟨by decide, ?_⟩
  exact C7_failed_result_invariant ⟨fun _ _ => .error "boom"⟩ [] (fun _ => none) "a.png"
    (by decide)

/-- C2 counterexample: in a two-file batch where the first upload throws an
error whose message is empty and the second upload succeeds with an empty
cid, the first entry's error message is empty (not non-empty as claimed)
and the persisted mapping is empty, omitting the successful second entry,
so the persisted mapping is not exactly the success entries as claimed. -/
theorem C2_counterexample :
    executeUploads ⟨fun fp _ => if fp = "a.png" then .error "" else .ok ""⟩ []
        (fun _ => none) ["a.png", "b.png"]
      = [{ fileName := "a.png", cid := "", success := false, error := some "" },
         { fileName := "b.png", cid := "", success := true, error := none }]
      ∧ persistSuccessfulUploads
          [{ fileName := "a.png", cid := "", success := false, error := some "" },
           { fileName := "b.png", cid := "", success := true, error := none }] = [] := by
  decide

/-- C2 (amended): the upload batch returns one result per file even when
per-file uploads throw; a thrown error yields a failed entry carrying the
thrown message (non-empty exactly when that message is), a completing file
contributes its own upload result, and the persisted mapping consists
exactly of the successful entries that carry a non-empty cid. -/
theorem C2_upload_isolation (env : UploadEnv) (cache : List (String × String))
    (stepFault : String → Option String) (files : List String)
    (hnd : (files.map getFileName).Nodup) :
    (executeUploads env cache stepFault files).length = files.length
      ∧ (∀ fp ∈ files, ∀ msg, stepFault fp = some msg →
          handleTrackedException (getFileName fp) msg
            ∈ executeUploads env cache stepFault files)
      ∧ (∀ fp ∈ files, stepFault fp = none →
          (processFileUpload env cache fp).1 ∈ executeUploads env cache stepFault files)
      ∧ persistSuccessfulUploads (executeUploads env cache stepFault files)
          = ((executeUploads env cache stepFault files).filter
              fun r => r.success && !r.cid.isEmpty).map fun r => (r.fileName, r.cid) := by
  refine ⟨by simp [executeUploads], ?_, ?_, ?_⟩
  · intro fp hfp msg hmsg
    refine List.mem_map.mpr ⟨fp, hfp, ?_⟩
    unfold processFileUploadWithTracking
    rw [hmsg]
  · intro fp hfp hnone
    refine List.mem_map.mpr ⟨fp, hfp, ?_⟩
    unfold processFileUploadWithTracking
    rw [hnone]
  · apply persistSuccessfulUploads_eq
    rw [executeUploads_map_fileName]
    exact hnd

/-- Witness for C2 on a two-file batch with one thrown error. -/
theorem C2_witness :
    (["a.png", "b.png"].map getFileName).Nodup
      ∧ (executeUploads ⟨fun _ _ => .ok "QmB"⟩ []
            (fun fp => if fp = "a.png" then some "boom" else none)
            ["a.png", "b.png"]).length = ["a.png", "b.png"].length
      ∧ { fileName := "a.png", cid := "", success := false, error := some "boom" }
          ∈ executeUploads ⟨fun _ _ => .ok "QmB"⟩ []
              (fun fp => if fp = "a.png" then some "boom" else none) ["a.png", "b.png"]
      ∧ { fileName := "b.png", cid := "QmB", success := true, error := none }
          ∈ executeUploads ⟨fun _ _ => .ok "QmB"⟩ []
              (fun fp => if fp = "a.png" then some "boom" else none) ["a.png", "b.png"]
      ∧ persistSuccessfulUploads
            (executeUploads ⟨fun _ _ => .ok "QmB"⟩ []
              (fun fp => if fp = "a.png" then some "boom" else none) ["a.png", "b.png"])
          = [("b.png", "QmB")] := by
  refine ⟨by decide, ?_, ?_, ?_, ?_⟩
  · exact (C2_upload_isolation ⟨fun _ _ => .ok "QmB"⟩ []
      (fun fp => if fp = "a.png" then some "boom" else none) ["a.png", "b.png"]
      (by decide)).1
  · have h := (C2_upload_isolation ⟨fun _ _ => .ok "QmB"⟩ []
      (fun fp => if fp = "a.png" then some "boom" else none) ["a.png", "b.png"]
      (by decide)).2.1 "a.png" (by decide) "boom" (by decide)
    exact (show handleTrackedException (getFileName "a.png") "boom"
      = { fileName := "a.png", cid := "", success := false, error := some "boom" }
      from by decide) ▸ h
  · have h := (C2_upload_isolation ⟨fun _ _ => .ok "QmB"⟩ []
      (fun fp => if fp = "a.png" then some "boom" else none) ["a.png", "b.png"]
      (by decide)).2.2.1 "b.png" (by decide) (by decide)
    exact (show (processFileUpload ⟨fun _ _ => .ok "QmB"⟩ [] "b.png").1
      = { fileName := "b.png", cid := "QmB", success := true, error := none }
      from by decide) ▸ h
  · exact ((C2_upload_isolation ⟨fun _ _ => .ok "QmB"⟩ []
      (fun fp => if fp = "a.png" then some "boom" else none) ["a.png", "b.png"]
      (by decide)).2.2.2).trans (by decide)

/-- C8: folder upload is atomic.  With valid options, either the whole
folder uploads, one CID is returned as a success and that CID is the only
write to the output path, or the upload fails and the returned result has
success false, an empty cid and the error message, with nothing written. -/
theorem C8_folder_upload_atomic (uploadFolder : String → String → Except String String)
    (folderPath outputPath : String) (folderName : Option String)
    (h1 : isNonEmptyString folderPath = true) (h2 : isNonEmptyString outputPath = true) :
    (∀ cid, uploadFolder folderPath (displayNameOf folderName folderPath) = .ok cid →
        folderUploadProcess uploadFolder folderPath outputPath folderName
          = (.ok { folderName := displayNameOf folderName folderPath, cid := cid,
                   success := true, error := none }, [(outputPath, .str cid)]))
      ∧ (∀ e, uploadFolder folderPath (displayNameOf folderName folderPath) = .error e →
          folderUploadProcess uploadFolder folderPath outputPath folderName
            = (.ok { folderName := displayNameOf folderName folderPath, cid := "",
                     success := false, error := some e }, [])) := by
  constructor
  · intro cid hok
    simp only [folderUploadProcess, h1, h2, Bool.not_true, Bool.false_eq_true, if_false]
    rw [hok]
  · intro e herr
    simp only [folderUploadProcess, h1, h2, Bool.not_true, Bool.false_eq_true, if_false]
    rw [herr]

/-- Witness for C8 exercising the success and the failure branch. -/
theorem C8_witness :
    isNonEmptyString "meta" = true
      ∧ isNonEmptyString "out.json" = true
      ∧ folderUploadProcess (fun _ _ => .ok "QmF") "meta" "out.json" none
          = (.ok { folderName := "meta", cid := "QmF", success := true, error := none },
              [("out.json", .str "QmF")])
      ∧ folderUploadProcess (fun _ _ => .error "down") "meta" "out.json" none
          = (.ok { folderName := "meta", cid := "", success := false, error := some "down" },
              []) := by
  refine ⟨by decide, by decide, ?_, ?_⟩
  · exact ((C8_folder_upload_atomic (fun _ _ => .ok "QmF") "meta" "out.json" none
      (by decide) (by decide)).1 "QmF" rfl).trans (by decide)
  · exact ((C8_folder_upload_atomic (fun _ _ => .error "down") "meta" "out.json" none
      (by decide) (by decide)).2 "down" rfl).trans (by decide)

/-- C6: fail-fast digest batches are atomic.  If reading or digesting any
single file of the batch throws, the process call returns no mapping and
performs no write at all, and when the failing file is the only one that
fails, the very error it threw is rethrown to the caller. -/
theorem C6_failfast_atomic (env : HashEnv) (folderPath outputPath : String)
    (files : List String) (f e : String)
    (h1 : isNonEmptyString folderPath = true) (h2 : isNonEmptyString outputPath = true)
    (hf : env.readFiles folderPath = .ok files)
    (hmem : f ∈ files)
    (hstep : stepResult env.readFile (fun _ _ c => env.digest c) f = .error e) :
    (hashProcess env folderPath outputPath).2 = []
      ∧ (hashProcess env folderPath outputPath).1.isOk = false
      ∧ ((∀ g ∈ files, g ≠ f →
            ∃ v, stepResult env.readFile (fun _ _ c => env.digest c) g = .ok v) →
          (hashProcess env folderPath outputPath).1 = .error e) := by
  have hne : files.isEmpty = false := by
    cases files with
    | nil => simp at hmem
    | cons a l => rfl
  rw [hashProcess_eq env folderPath outputPath files h1 h2 hf hne]
  obtain ⟨e2, he2⟩ := processFilesGo_error_of_step env.readFile
    (fun _ _ c => env.digest c) files [] ⟨f, hmem, e, hstep⟩
  have hcalc : calculateHashes env files = .error e2 := he2
  rw [hcalc]
  refine ⟨rfl, rfl, ?_⟩
  intro honly
  have hexact : calculateHashes env files = .error e :=
    processFilesGo_error_exact env.readFile (fun _ _ c => env.digest c) files [] f e
      hmem hstep honly
  exact (hcalc.symm.trans hexact) ▸ rfl

/-- Witness for C6 at a one-file batch whose read throws. -/
theorem C6_witness :
    isNonEmptyString "folder" = true
      ∧ stepResult (fun _ => .error "boom")
          (fun _ _ _ => (.ok "h" : Except String String)) "a.txt" = .error "boom"
      ∧ (hashProcess ⟨fun _ => .ok ["a.txt"], fun _ => .error "boom", fun _ => .ok "h"⟩
          "folder" "out").2 = []
      ∧ (hashProcess ⟨fun _ => .ok ["a.txt"], fun _ => .error "boom", fun _ => .ok "h"⟩
          "folder" "out").1 = .error "boom" := by
  refine ⟨by decide, by decide, ?_, ?_⟩
  · exact (C6_failfast_atomic
      ⟨fun _ => .ok ["a.txt"], fun _ => .error "boom", fun _ => .ok "h"⟩
      "folder" "out" ["a.txt"] "a.txt" "boom" (by decide) (by decide) rfl (by decide)
      (by decide)).1
  · exact (C6_failfast_atomic
      ⟨fun _ => .ok ["a.txt"], fun _ => .error "boom", fun _ => .ok "h"⟩
      "folder" "out" ["a.txt"] "a.txt" "boom" (by decide) (by decide) rfl (by decide)
      (by decide)).2.2
      fun g hg hne2 => absurd (List.mem_singleton.mp hg) hne2

/-- C5: pagination termination and aggregation.  When the remote answers k
full pages of the fixed size 1000 followed by one short nonempty page, the
download loop issues exactly k plus one page requests and aggregates all
the rows; with page sizes 1000, 1000, 37 that is 3 requests and 2037
records. -/
theorem C5_pagination (remote : Nat → Nat → PinListResponse) (k fuel : Nat)
    (hfull : ∀ i, i < k → (normalizeRows (remote (i * 1000) 1000).rows).length = 1000)
    (hcount : ∀ i, i ≤ k → (remote (i * 1000) 1000).count ≠ 0)
    (hpos : 0 < (normalizeRows (remote (k * 1000) 1000).rows).length)
    (hshort : (normalizeRows (remote (k * 1000) 1000).rows).length < 1000)
    (hfuel : k + 1 ≤ fuel) :
    pageRequestsOf (collectPins remote fuel) = some (k + 1)
      ∧ recordTotalOf (collectPins remote fuel)
          = some (k * 1000 + (normalizeRows (remote (k * 1000) 1000).rows).length) := by
  have hfull0 : ∀ i, i < k →
      (normalizeRows (remote (0 + i * 1000) 1000).rows).length = 1000 := by
    intro i hi
    rw [Nat.zero_add]
    exact hfull i hi
  have hcount0 : ∀ i, i ≤ k → (remote (0 + i * 1000) 1000).count ≠ 0 := by
    intro i hi
    rw [Nat.zero_add]
    exact hcount i hi
  have hpos0 : 0 < (normalizeRows (remote (0 + k * 1000) 1000).rows).length := by
    rwa [Nat.zero_add]
  have hshort0 : (normalizeRows (remote (0 + k * 1000) 1000).rows).length < 1000 := by
    rwa [Nat.zero_add]
  obtain ⟨pins, hp, hlen⟩ :=
    collectPinsGo_spec remote k 0 fuel 0 [] hfull0 hcount0 hpos0 hshort0 hfuel
  unfold collectPins
  rw [Nat.zero_add] at hp
  rw [hp]
  simp only [List.length_nil, Nat.zero_add] at hlen
  exact ⟨rfl, congrArg some hlen⟩

set_option maxRecDepth 100000 in
/-- Witness for C5 on a remote answering page sizes 1000, 1000, 37. -/
theorem C5_witness :
    (normalizeRows ((fun off _ =>
          if off < 2000 then PinListResponse.mk 2037 (some (List.replicate 1000 (some "f", "Qm")))
          else PinListResponse.mk 2037 (some (List.replicate 37 (some "f", "Qm"))))
        (0 * 1000) 1000).rows).length = 1000
      ∧ (normalizeRows ((fun off _ =>
            if off < 2000 then PinListResponse.mk 2037 (some (List.replicate 1000 (some "f", "Qm")))
            else PinListResponse.mk 2037 (some (List.replicate 37 (some "f", "Qm"))))
          (2 * 1000) 1000).rows).length = 37
      ∧ pageRequestsOf (collectPins (fun off _ =>
            if off < 2000 then PinListResponse.mk 2037 (some (List.replicate 1000 (some "f", "Qm")))
            else PinListResponse.mk 2037 (some (List.replicate 37 (some "f", "Qm")))) 3)
          = some 3
      ∧ recordTotalOf (collectPins (fun off _ =>
            if off < 2000 then PinListResponse.mk 2037 (some (List.replicate 1000 (some "f", "Qm")))
            else PinListResponse.mk 2037 (some (List.replicate 37 (some "f", "Qm")))) 3)
          = some 2037 := by
  refine ⟨by decide, by decide, ?_, ?_⟩
  · exact (C5_pagination (fun off _ =>
        if off < 2000 then PinListResponse.mk 2037 (some (List.replicate 1000 (some "f", "Qm")))
        else PinListResponse.mk 2037 (some (List.replicate 37 (some "f", "Qm")))) 2 3
      (by decide) (by decide) (by decide) (by decide) (by decide)).1
  · exact ((C5_pagination (fun off _ =>
        if off < 2000 then PinListResponse.mk 2037 (some (List.replicate 1000 (some "f", "Qm")))
        else PinListResponse.mk 2037 (some (List.replicate 37 (some "f", "Qm")))) 2 3
      (by decide) (by decide) (by decide) (by decide) (by decide)).2).trans (by decide)

theorem objectKeys_entries (files : List String) (d : String → String) :
    objectKeys (files.map fun f => (getFileName f, d (getFileName f)))
      = files.map getFileName := by
  simp [objectKeys, List.map_map]

theorem sortObjectByKeys_entries (files : List String) (d : String → String)
    (hnd : (files.map getFileName).Nodup) :
    sortObjectByKeys (files.map fun f => (getFileName f, d (getFileName f)))
      = (List.insertionSort localeNatLe (files.map getFileName)).map fun k => (k, d k) := by
  unfold sortObjectByKeys
  rw [objectKeys_entries]
  apply keyedEntries_eq_map
  intro k hk
  have hk2 : k ∈ files.map getFileName := (List.perm_insertionSort _ _).mem_iff.mp hk
  obtain ⟨f0, hf0, rfl⟩ := List.mem_map.mp hk2
  apply lookup_eq_some_of_mem
  · rw [objectKeys_entries]
    exact hnd
  · exact List.mem_map.mpr ⟨f0, hf0, rfl⟩

theorem calculateHashes_entries (env : HashEnv) (files : List String) (d : String → String)
    (hnd : (files.map getFileName).Nodup)
    (hsteps : ∀ f ∈ files, stepResult env.readFile (fun _ _ c => env.digest c) f
        = .ok (d (getFileName f))) :
    calculateHashes env files
      = .ok (sortObjectByKeys (files.map fun f => (getFileName f, d (getFileName f)))) := by
  unfold calculateHashes processFiles
  have h := processFilesGo_ok_of_steps env.readFile (fun _ _ c => env.digest c)
    (fun f => d (getFileName f)) files [] hsteps (by simpa [objectKeys] using hnd)
  simpa using h

theorem hashProcess_entries (env : HashEnv) (folderPath outputPath : String)
    (files : List String) (d : String → String)
    (h1 : isNonEmptyString folderPath = true) (h2 : isNonEmptyString outputPath = true)
    (hf : env.readFiles folderPath = .ok files) (hne : files.isEmpty = false)
    (hnd : (files.map getFileName).Nodup)
    (hsteps : ∀ f ∈ files, stepResult env.readFile (fun _ _ c => env.digest c) f
        = .ok (d (getFileName f))) :
    hashProcess env folderPath outputPath
      = (.ok (sortObjectByKeys (files.map fun f => (getFileName f, d (getFileName f)))),
          [(outputPath, .mapping
            (sortObjectByKeys (files.map fun f => (getFileName f, d (getFileName f)))))]) := by
  have hM := calculateHashes_entries env files d hnd hsteps
  have hsortednd : (objectKeys (sortObjectByKeys
      (files.map fun f => (getFileName f, d (getFileName f))))).Nodup := by
    apply (sortObjectByKeys_keys_perm _).nodup_iff.mpr
    rw [objectKeys_entries]
    exact hnd
  have hdouble : sortObjectByKeys (sortObjectByKeys
        (files.map fun f => (getFileName f, d (getFileName f))))
      = sortObjectByKeys (files.map fun f => (getFileName f, d (getFileName f))) :=
    sortObjectByKeys_of_sorted hsortednd (sortObjectByKeys_keys_sorted _)
  rw [hashProcess_eq env folderPath outputPath files h1 h2 hf hne, hM]
  show ((.ok (sortObjectByKeys (sortObjectByKeys
        (files.map fun f => (getFileName f, d (getFileName f))))) : Except String _),
      [(outputPath, Persisted.mapping (sortObjectByKeys (sortObjectByKeys
        (files.map fun f => (getFileName f, d (getFileName f))))))]) = _
  rw [hdouble]

/-- C4: aggregate hash definition and input-order independence.  On a
successful batch with distinct base names the final hash equals the hash
strategy applied to the UTF-8 bytes of the concatenation, with no
separator, of the per-file digest strings in sorted-key order (the
spec-side specAggregateHash); and permuting the discovered file list
leaves the entire processWithFinalHash run unchanged. -/
theorem C4_aggregate_hash (env : HashEnv) (folderPath outputPath finalOutputPath : String)
    (files : List String) (d : String → String)
    (h1 : isNonEmptyString folderPath = true) (h2 : isNonEmptyString outputPath = true)
    (hf : env.readFiles folderPath = .ok files) (hne : files.isEmpty = false)
    (hnd : (files.map getFileName).Nodup)
    (hsteps : ∀ f ∈ files, stepResult env.readFile (fun _ _ c => env.digest c) f
        = .ok (d (getFileName f))) :
    (processWithFinalHash env folderPath outputPath finalOutputPath).1
        = specAggregateHash env.digest d (files.map getFileName)
      ∧ ∀ (env2 : HashEnv) (files2 : List String), files2.Perm files →
          env2.readFile = env.readFile → env2.digest = env.digest →
          env2.readFiles folderPath = .ok files2 →
          processWithFinalHash env2 folderPath outputPath finalOutputPath
            = processWithFinalHash env folderPath outputPath finalOutputPath := by
  have hHP := hashProcess_entries env folderPath outputPath files d h1 h2 hf hne hnd hsteps
  have hvals : (sortObjectByKeys (files.map fun f => (getFileName f, d (getFileName f)))).map
      Prod.snd = (List.insertionSort localeNatLe (files.map getFileName)).map d := by
    rw [sortObjectByKeys_entries files d hnd]
    simp [List.map_map]
  constructor
  · simp only [processWithFinalHash, hHP]
    rw [hvals]
    have hspec : specAggregateHash env.digest d (files.map getFileName)
        = calculateHashOfHashes env
            ((List.insertionSort localeNatLe (files.map getFileName)).map d) := rfl
    rw [hspec]
    cases calculateHashOfHashes env
        ((List.insertionSort localeNatLe (files.map getFileName)).map d) with
    | ok fh => rfl
    | error e => rfl
  · intro env2 files2 hperm hrf hdg hf2
    have hsteps2 : ∀ f ∈ files2, stepResult env2.readFile (fun _ _ c => env2.digest c) f
        = .ok (d (getFileName f)) := by
      intro f hf3
      simp only [hrf, hdg]
      exact hsteps f (hperm.mem_iff.mp hf3)
    have hnd2 : (files2.map getFileName).Nodup := (hperm.map getFileName).nodup_iff.mpr hnd
    have hne2 : files2.isEmpty = false := by
      cases hfe : files2 with
      | nil =>
        rw [hfe] at hperm
        rw [hperm.symm.eq_nil] at hne
        simp at hne
      | cons a l => rfl
    have hHP2 := hashProcess_entries env2 folderPath outputPath files2 d h1 h2 hf2 hne2
      hnd2 hsteps2
    have hMeq : sortObjectByKeys (files2.map fun f => (getFileName f, d (getFileName f)))
        = sortObjectByKeys (files.map fun f => (getFileName f, d (getFileName f))) := by
      apply sortObjectByKeys_perm_invariant
      · rw [objectKeys_entries]
        exact hnd2
      · exact hperm.map _
    rw [hMeq] at hHP2
    simp only [processWithFinalHash, hHP, hHP2, calculateHashOfHashes, hdg]

/-- Witness for C4 on a two-file batch and its reversal. -/
theorem C4_witness :
    ((["x/b.txt", "x/a.txt"].map getFileName).Nodup)
      ∧ (processWithFinalHash
            ⟨fun _ => .ok ["x/b.txt", "x/a.txt"], fun _ => .ok [], fun _ => .ok "h"⟩
            "folder" "out" "final").1 = .ok "h"
      ∧ processWithFinalHash
            ⟨fun _ => .ok ["x/a.txt", "x/b.txt"], fun _ => .ok [], fun _ => .ok "h"⟩
            "folder" "out" "final"
          = processWithFinalHash
              ⟨fun _ => .ok ["x/b.txt", "x/a.txt"], fun _ => .ok [], fun _ => .ok "h"⟩
              "folder" "out" "final" := by
  refine ⟨by decide, ?_, ?_⟩
  · exact ((C4_aggregate_hash
      ⟨fun _ => .ok ["x/b.txt", "x/a.txt"], fun _ => .ok [], fun _ => .ok "h"⟩
      "folder" "out" "final" ["x/b.txt", "x/a.txt"] (fun _ => "h")
      (by decide) (by decide) rfl (by decide) (by decide) (by decide)).1).trans (by decide)
  · exact (C4_aggregate_hash
      ⟨fun _ => .ok ["x/b.txt", "x/a.txt"], fun _ => .ok [], fun _ => .ok "h"⟩
      "folder" "out" "final" ["x/b.txt", "x/a.txt"] (fun _ => "h")
      (by decide) (by decide) rfl (by decide) (by decide) (by decide)).2
      ⟨fun _ => .ok ["x/a.txt", "x/b.txt"], fun _ => .ok [], fun _ => .ok "h"⟩
      ["x/a.txt", "x/b.txt"] (by decide) rfl rfl rfl
